import Mathlib

/-!
# Verification of the bacterial gene-analysis core

Shallow embedding of the Python functions in
`workshops/1_22_05_2025/bioinformatics_gene_analysis_en.ipynb`:
`parse_fasta`, `reverse_complement`, `parse_gff`, `find_orfs_bacterial`,
`match_orfs`, `compute_metrics`.

Modelling conventions:
* Python strings are modelled as `List Char`; a text file is a `List (List Char)`
  of its lines (the Python code iterates over lines of an open file).
* Python `int` arithmetic is exact, so `Int`/`Nat` are used directly.
* Python floats in `compute_metrics` are read as exact rationals (`ℚ`).
* A Python function that can raise is modelled with `Except FormatError`;
  Python's `int()` raises `ValueError` on a malformed literal, which the
  specification's error taxonomy calls `FormatError`.
-/

namespace GeneAnalysis

/-- The only propagated failure in the spec's error taxonomy. -/
inductive FormatError where
  | formatError (msg : List Char)
deriving DecidableEq, Repr

/-! ## Python string primitives used by the parsers -/

/-- The whitespace characters stripped by Python's `str.strip()` (ASCII range). -/
def pySpace (c : Char) : Bool :=
  c = ' ' || c = '\t' || c = '\n' || c = '\x0d' || c = '\x0b' || c = '\x0c'

/-- Python `str.strip()`: remove leading and trailing whitespace. -/
def pyStrip (l : List Char) : List Char :=
  ((l.dropWhile pySpace).reverse.dropWhile pySpace).reverse

/-- Python `str.split(sep)` for a one-character separator: splits on every
occurrence, keeping empty fields (`''.split(t)` is `['']`). -/
def splitOnChar (sep : Char) : List Char → List (List Char)
  | [] => [[]]
  | c :: rest =>
    match splitOnChar sep rest with
    | [] => [[c]]
    | g :: gs => if c = sep then [] :: g :: gs else (c :: g) :: gs

/-- Value of a nonempty digit string, most significant digit first. -/
def digitsVal (l : List Char) : Int :=
  l.foldl (fun n c => n * 10 + ((c.toNat - '0'.toNat : Nat) : Int)) 0

/-- No two consecutive underscores. -/
def noDoubleUnderscore : List Char → Bool
  | '_' :: '_' :: _ => false
  | _ :: rest => noDoubleUnderscore rest
  | [] => true

/-- Python `int(s)` on an unsigned body: ASCII digits with single underscores
allowed only between digits. -/
def pyIntDigits (l : List Char) : Option Int :=
  if l ≠ [] ∧ (∀ c ∈ l, c.isDigit ∨ c = '_') ∧ l.head? ≠ some '_' ∧
      l.getLast? ≠ some '_' ∧ noDoubleUnderscore l = true then
    some (digitsVal (l.filter (· ≠ '_')))
  else
    none

/-- Python `int(s)` for decimal integer literals: strip whitespace, optional
single sign, digit body; `none` models the `ValueError` raised otherwise. -/
def pyInt (l : List Char) : Option Int :=
  match pyStrip l with
  | '+' :: rest => pyIntDigits rest
  | '-' :: rest => (pyIntDigits rest).map (fun n => -n)
  | rest => pyIntDigits rest

/-! ## `reverse_complement` (notebook Part 3) -/

/-- The complement table of `reverse_complement`: `complement.get(base, base)`,
i.e. any symbol outside the table passes through unchanged. -/
def complementChar (c : Char) : Char :=
  if c = 'A' then 'T' else if c = 'T' then 'A'
  else if c = 'G' then 'C' else if c = 'C' then 'G'
  else if c = 'a' then 't' else if c = 't' then 'a'
  else if c = 'g' then 'c' else if c = 'c' then 'g'
  else if c = 'N' then 'N' else if c = 'n' then 'n'
  else c

/-- `reverse_complement`: reverse the sequence, then complement each base. -/
def reverse_complement (dna_seq : List Char) : List Char :=
  dna_seq.reverse.map complementChar

/-! ## `compute_metrics` (notebook Part 9)

The source computes the four ratios in float arithmetic and then rounds them
to 4 decimals for display; here the ratios are read over exact rationals and
the display rounding is left out (it is presentation glue). -/

structure Metrics where
  TP : ℕ
  FP : ℕ
  FN : ℕ
  Precision : ℚ
  Recall : ℚ
  F1 : ℚ
  Accuracy : ℚ
deriving DecidableEq, Repr

/-- `compute_metrics(tp, fp, fn)`, each ratio guarded by the source's
`if denominator > 0 else 0.0` test.  Field names follow the keys of the
returned dict; the local `recall` of the source is `recallQ` here because
`recall` is reserved in this development's ambient library. -/
def compute_metrics (tp fp fn : ℕ) : Metrics :=
  let precision : ℚ := if tp + fp > 0 then (tp : ℚ) / ((tp : ℚ) + fp) else 0
  let recallQ : ℚ := if tp + fn > 0 then (tp : ℚ) / ((tp : ℚ) + fn) else 0
  let f1 : ℚ := if precision + recallQ > 0 then
      2 * precision * recallQ / (precision + recallQ) else 0
  let accuracy : ℚ := if tp + fp + fn > 0 then
      (tp : ℚ) / ((tp : ℚ) + fp + fn) else 0
  { TP := tp, FP := fp, FN := fn,
    Precision := precision, Recall := recallQ, F1 := f1, Accuracy := accuracy }

/-! ## `parse_fasta` (notebook Part 2)

The Python generator strips each line, skips blank lines, starts a new record
at each line beginning with `>`, and otherwise appends the line to the current
record's sequence buffer; a record is yielded when the next header (or the end
of input) is reached, and only if a header has been seen.  The function body
contains no `raise`, so the `Except` result is always `ok`. -/

/-- The loop state of `parse_fasta`: current `header` (if any), the buffered
sequence lines, and the remaining input lines. -/
def pfLoop (header : Option (List Char)) (acc : List (List Char)) :
    List (List Char) → List (List Char × List Char)
  | [] =>
    match header with
    | none => []
    | some h => [(h, acc.flatten)]
  | line :: rest =>
    let l := pyStrip line
    if l = [] then
      pfLoop header acc rest
    else if l.head? = some '>' then
      (match header with
       | none => []
       | some h => [(h, acc.flatten)]) ++ pfLoop (some (l.drop 1)) [] rest
    else
      pfLoop header (acc ++ [l]) rest

/-- `parse_fasta`, applied to the lines of the file. -/
def parse_fasta (lines : List (List Char)) :
    Except FormatError (List (List Char × List Char)) :=
  Except.ok (pfLoop none [] lines)

/-! ## `parse_gff` (notebook Part 6) -/

structure AnnotationRecord where
  seqid : List Char
  source : List Char
  type : List Char
  start : Int
  /-- `end` in the source dict; renamed because `end` is reserved here. -/
  endPos : Int
  score : Option (List Char)
  strand : List Char
  phase : Option (List Char)
  attributes : List (List Char × List Char)
deriving DecidableEq, Repr

/-- `attr_dict[key] = value`: Python dict update, keeping insertion order and
overwriting an existing binding in place. -/
def dictInsert (d : List (List Char × List Char)) (k v : List Char) :
    List (List Char × List Char) :=
  if d.any (fun p => p.1 = k) then
    d.map (fun p => if p.1 = k then (k, v) else p)
  else
    d ++ [(k, v)]

/-- The attributes column: semicolon-separated tokens; a token containing `=`
is split at its first `=` into key and value, other tokens are dropped. -/
def parseAttrs (attributes : List Char) : List (List Char × List Char) :=
  (splitOnChar ';' attributes).foldl
    (fun d attr =>
      if attr.contains '=' then
        dictInsert d (attr.takeWhile (· ≠ '=')) ((attr.dropWhile (· ≠ '=')).drop 1)
      else d)
    []

/-- One pass of the `parse_gff` loop over a stripped, non-comment line with
exactly 9 tab-separated fields; `int(start)`/`int(end)` failure propagates. -/
def gffRow (parts : List (List Char)) : Except FormatError AnnotationRecord :=
  match parts with
  | [seqid, source, feature_type, start, endF, score, strand, phase, attributes] =>
    match pyInt start, pyInt endF with
    | some s, some e =>
      Except.ok
        { seqid := seqid, source := source, type := feature_type,
          start := s, endPos := e,
          score := if score = ['.'] then none else some score,
          strand := strand,
          phase := if phase = ['.'] then none else some phase,
          attributes := parseAttrs attributes }
    | _, _ => Except.error (FormatError.formatError ['i', 'n', 't'])
  | _ => Except.error (FormatError.formatError [])

/-- `parse_gff`, applied to the lines of the file: skip blank and `#` lines and
rows without exactly 9 tab-separated fields; parse the rest, propagating the
first integer-parse failure (Python's uncaught `ValueError`). -/
def parse_gff (lines : List (List Char)) :
    Except FormatError (List AnnotationRecord) :=
  match lines with
  | [] => Except.ok []
  | line :: rest =>
    let l := pyStrip line
    if l = [] ∨ l.head? = some '#' then
      parse_gff rest
    else
      let parts := splitOnChar '\t' l
      if parts.length ≠ 9 then
        parse_gff rest
      else
        match gffRow parts with
        | Except.error e => Except.error e
        | Except.ok r =>
          match parse_gff rest with
          | Except.error e => Except.error e
          | Except.ok rs => Except.ok (r :: rs)

/-! ## `find_orfs_bacterial` (notebook Part 8) -/

/-- `"ATG"` as a codon. -/
def start_codon : List Char := ['A', 'T', 'G']

/-- `["TAA", "TAG", "TGA"]`. -/
def stop_codons : List (List Char) := [['T', 'A', 'A'], ['T', 'A', 'G'], ['T', 'G', 'A']]

/-- The slice `dna_sequence[i : i + 3]`. -/
def codonAt (s : List Char) (i : ℕ) : List Char :=
  (s.drop i).take 3

structure Orf where
  start : ℕ
  /-- `end` in the source dict; renamed because `end` is reserved here. -/
  endPos : ℕ
  frame : ℕ
  sequence : List Char
  length : ℕ
deriving DecidableEq, Repr

/-- The record built for an accepted ORF spanning `[a, e)` in frame offset `f`:
`sequence` is the slice `dna_sequence[a : e]` and `length` its length. -/
def mkOrf (s : List Char) (f a e : ℕ) : Orf :=
  let orf_sequence := (s.drop a).take (e - a)
  { start := a, endPos := e, frame := f + 1,
    sequence := orf_sequence, length := orf_sequence.length }

/-- The ATG scan of one frame: `range(frame_offset, n - 2, 3)` visits exactly
the `i < n` with `i % 3 = f` (for `f < 3`) and `i + 2 < n`, in ascending
order; keep those whose codon is `"ATG"`. -/
def atgIndices (s : List Char) (f : ℕ) : List ℕ :=
  (List.range s.length).filter
    (fun i => i % 3 = f ∧ i + 2 < s.length ∧ codonAt s i = start_codon)

/-- The stop-codon scan `for j in range(atg_start_index + 3, n - 2, 3)`:
`rem` is `dna_sequence[j:]`, and the scan continues while `j + 2 < n`,
i.e. while `rem` still holds a full codon. -/
def findStopFrom : List Char → ℕ → Option ℕ
  | a :: b :: c :: rest, j =>
    if [a, b, c] ∈ stop_codons then some j else findStopFrom rest (j + 3)
  | _, _ => none

/-- The inner loop over the ATG candidates of one frame, carrying
`identified_orf_regions_by_frame[frame_offset]` as `regions`: a candidate
nested in a claimed region is skipped; otherwise the first in-frame stop
(if any) closes the ORF and claims its region. -/
def frameLoop (s : List Char) (f : ℕ) : List ℕ → List (ℕ × ℕ) → List Orf
  | [], _ => []
  | a :: rest, regions =>
    if regions.any (fun r => decide (r.1 ≤ a ∧ a < r.2)) then
      frameLoop s f rest regions
    else
      match findStopFrom (s.drop (a + 3)) (a + 3) with
      | some j => mkOrf s f a (j + 3) :: frameLoop s f rest (regions ++ [(a, j + 3)])
      | none => frameLoop s f rest regions

/-- All ORFs found in frame offset `f`, in ascending start order. -/
def orfsInFrame (s : List Char) (f : ℕ) : List Orf :=
  frameLoop s f (atgIndices s f) []

/-- The sort key `(x['start'], x['frame'])`, as a relation. -/
def orfLe (o₁ o₂ : Orf) : Prop :=
  o₁.start < o₂.start ∨ (o₁.start = o₂.start ∧ o₁.frame ≤ o₂.frame)

instance : DecidableRel orfLe := fun o₁ o₂ => by
  unfold orfLe; infer_instance

/-- `find_orfs_bacterial`: empty input short-circuits; otherwise uppercase,
scan the three frames, and sort the union by `(start, frame)`.  All sort keys
are distinct (same-frame ORFs have distinct starts), so Python's stable sort
and this insertion sort produce the same list. -/
def find_orfs_bacterial (dna_sequence : List Char) : List Orf :=
  if dna_sequence = [] then []
  else
    let s := dna_sequence.map Char.toUpper
    List.insertionSort orfLe (orfsInFrame s 0 ++ orfsInFrame s 1 ++ orfsInFrame s 2)

/-! ## `match_orfs` (notebook Part 9)

The source first projects its two dict lists to interval lists
`[(orf['start'], orf['end']) ...]`; the model takes those interval lists
directly.  `matched_true` is a set of indices into `truth`; it is carried as a
duplicate-free list. -/

/-- The per-candidate test
`abs(p_start - t_start) <= tolerance and abs(p_end - t_end) <= tolerance`. -/
def closeTo (tolerance : Int) (p t : Int × Int) : Bool :=
  decide (|p.1 - t.1| ≤ tolerance ∧ |p.2 - t.2| ≤ tolerance)

/-- The inner loop of `match_orfs`: scan `truth` (with running index `idx`)
for the first not-yet-matched interval within tolerance of `p`. -/
def findMatch (tolerance : Int) (p : Int × Int) (matched : List ℕ) :
    List (Int × Int) → ℕ → Option ℕ
  | [], _ => none
  | t :: ts, idx =>
    if idx ∈ matched then findMatch tolerance p matched ts (idx + 1)
    else if closeTo tolerance p t then some idx
    else findMatch tolerance p matched ts (idx + 1)

/-- The outer loop of `match_orfs` over the predicted intervals, returning
`(tp, fp, matched_true)`. -/
def matchLoop (tolerance : Int) (truth : List (Int × Int)) :
    List (Int × Int) → List ℕ → ℕ → ℕ → ℕ × ℕ × List ℕ
  | [], matched, tp, fp => (tp, fp, matched)
  | p :: ps, matched, tp, fp =>
    match findMatch tolerance p matched truth 0 with
    | some idx => matchLoop tolerance truth ps (idx :: matched) (tp + 1) fp
    | none => matchLoop tolerance truth ps matched tp (fp + 1)

/-- `match_orfs(predicted, truth, tolerance)` as `(TP, FP, FN)`. -/
def match_orfs (predicted truth : List (Int × Int)) (tolerance : Int) :
    ℕ × ℕ × ℕ :=
  let r := matchLoop tolerance truth predicted [] 0 0
  (r.1, r.2.1, truth.length - r.2.2.length)

/-- Abstraction of `matchLoop` at tolerance 0 over a duplicate-free truth
list: only the *set* of truth intervals and the *set* of already-matched
interval values matter. -/
def absLoop (T : Finset (Int × Int)) :
    List (Int × Int) → Finset (Int × Int) → ℕ → ℕ → ℕ × ℕ × Finset (Int × Int)
  | [], S, tp, fp => (tp, fp, S)
  | p :: ps, S, tp, fp =>
    if p ∈ T ∧ p ∉ S then absLoop T ps (insert p S) (tp + 1) fp
    else absLoop T ps S tp (fp + 1)

/-! ## Helper lemmas -/

/-- The ten characters in the complement table. -/
def dnaAlphabet : List Char := ['A', 'T', 'G', 'C', 'N', 'a', 't', 'g', 'c', 'n']

lemma complementChar_involutive (c : Char) (h : c ∈ dnaAlphabet) :
    complementChar (complementChar c) = c := by
  fin_cases h <;> rfl

/-- While no header has been seen, the sequence buffer of `parse_fasta`'s loop
is dead state: it is reset at the first header and dropped at end of input. -/
lemma pfLoop_none_acc_irrel (lines : List (List Char)) :
    ∀ acc acc', pfLoop none acc lines = pfLoop none acc' lines := by
  induction lines with
  | nil => intro acc acc'; rfl
  | cons line rest ih =>
    intro acc acc'
    simp only [pfLoop]
    by_cases h0 : pyStrip line = []
    · simp only [h0, if_pos rfl]
      exact ih acc acc'
    · by_cases h1 : (pyStrip line).head? = some '>'
      · simp [h0, h1]
      · simp only [h0, h1, if_neg, ite_false]
        exact ih _ _

/-- Lines whose stripped form does not start with `>` are consumed by
`parse_fasta`'s loop without emitting a record while no header is current. -/
lemma pfLoop_skip (pre : List (List Char))
    (h : ∀ l ∈ pre, (pyStrip l).head? ≠ some '>') :
    ∀ rest acc, pfLoop none acc (pre ++ rest) = pfLoop none [] rest := by
  induction pre with
  | nil => intro rest acc; exact pfLoop_none_acc_irrel rest acc []
  | cons line pre' ih =>
    intro rest acc
    have hline : (pyStrip line).head? ≠ some '>' := h line (List.mem_cons_self _ _)
    have h' : ∀ l ∈ pre', (pyStrip l).head? ≠ some '>' :=
      fun l hl => h l (List.mem_cons_of_mem _ hl)
    simp only [List.cons_append, pfLoop]
    by_cases h0 : pyStrip line = []
    · simp only [h0, if_pos rfl]
      exact ih h' rest acc
    · simp only [h0, hline, if_neg, ite_false]
      exact ih h' rest _

/-- A 9-field row whose start or end field fails integer parsing makes
`gffRow` fail. -/
lemma gffRow_error (f0 f1 f2 f3 f4 f5 f6 f7 f8 : List Char)
    (h : pyInt f3 = none ∨ pyInt f4 = none) :
    ∃ e, gffRow [f0, f1, f2, f3, f4, f5, f6, f7, f8] = Except.error e := by
  refine ⟨FormatError.formatError ['i', 'n', 't'], ?_⟩
  rcases h with h | h
  · cases h4 : pyInt f4 <;> simp [gffRow, h, h4]
  · cases h3 : pyInt f3 <;> simp [gffRow, h, h3]

/-- Specification of the stop-codon scan: started at `j0` on `s.drop j0`, a
`some j` result points at the first in-frame stop codon at or after `j0`. -/
lemma findStopFrom_spec (s : List Char) :
    ∀ (rem : List Char) (j0 : ℕ), rem = s.drop j0 →
      ∀ j, findStopFrom rem j0 = some j →
        j0 ≤ j ∧ (j - j0) % 3 = 0 ∧ j + 2 < s.length ∧ codonAt s j ∈ stop_codons ∧
        ∀ k, j0 ≤ k → k < j → (k - j0) % 3 = 0 → codonAt s k ∉ stop_codons := by
  intro rem j0
  induction rem, j0 using findStopFrom.induct with
  | case1 a b c rest j0 hstop =>
    intro hrem j hj
    have hcodon : codonAt s j0 = [a, b, c] := by
      simp only [codonAt, ← hrem, List.take_cons, List.take_zero]
      rfl
    have hlen : j0 + 2 < s.length := by
      have h1 : (s.drop j0).length = s.length - j0 := List.length_drop j0 s
      rw [← hrem] at h1
      simp only [List.length_cons] at h1
      omega
    simp only [findStopFrom, if_pos hstop, Option.some.injEq] at hj
    subst hj
    refine ⟨le_refl _, by omega, hlen, hcodon ▸ hstop, ?_⟩
    intro k hk1 hk2 _
    omega
  | case2 a b c rest j0 hstop ih =>
    intro hrem j hj
    simp only [findStopFrom, if_neg hstop] at hj
    have hrest : rest = s.drop (j0 + 3) := by
      have : s.drop (j0 + 3) = (s.drop j0).drop 3 := by
        rw [List.drop_drop]
      rw [this, ← hrem]
      rfl
    have hcodon : codonAt s j0 = [a, b, c] := by
      simp only [codonAt, ← hrem, List.take_cons, List.take_zero]
      rfl
    rcases ih hrest j hj with ⟨h1, h2, h3, h4, h5⟩
    refine ⟨by omega, by omega, h3, h4, ?_⟩
    intro k hk1 hk2 hk3
    rcases Nat.eq_or_lt_of_le hk1 with rfl | hk1'
    · rw [hcodon]
      exact hstop
    · have : j0 + 3 ≤ k := by omega
      exact h5 k this hk2 (by omega)
  | case3 rem j0 h =>
    intro hrem j hj
    rcases rem with _ | ⟨a, _ | ⟨b, _ | ⟨c, rest⟩⟩⟩
    · simp [findStopFrom] at hj
    · simp [findStopFrom] at hj
    · simp [findStopFrom] at hj
    · exact absurd rfl (h a b c rest)

/-- Every ORF emitted by `frameLoop` comes from a candidate ATG position and
a successful stop-codon scan. -/
lemma frameLoop_sound (s : List Char) (f : ℕ) :
    ∀ (atgs : List ℕ) (regions : List (ℕ × ℕ)) (orf : Orf),
      orf ∈ frameLoop s f atgs regions →
      ∃ a j, a ∈ atgs ∧ findStopFrom (s.drop (a + 3)) (a + 3) = some j ∧
        orf = mkOrf s f a (j + 3) := by
  intro atgs
  induction atgs with
  | nil =>
    intro regions orf h
    simp [frameLoop] at h
  | cons a rest ih =>
    intro regions orf h
    simp only [frameLoop] at h
    by_cases hskip : (regions.any (fun r => decide (r.1 ≤ a ∧ a < r.2))) = true
    · rw [if_pos hskip] at h
      rcases ih _ _ h with ⟨a', j, ha', hf, ho⟩
      exact ⟨a', j, List.mem_cons_of_mem _ ha', hf, ho⟩
    · rw [if_neg hskip] at h
      cases hfs : findStopFrom (s.drop (a + 3)) (a + 3) with
      | none =>
        rw [hfs] at h
        rcases ih _ _ h with ⟨a', j, ha', hf, ho⟩
        exact ⟨a', j, List.mem_cons_of_mem _ ha', hf, ho⟩
      | some j =>
        rw [hfs] at h
        rcases List.mem_cons.mp h with rfl | h'
        · exact ⟨a, j, List.mem_cons_self _ _, hfs, rfl⟩
        · rcases ih _ _ h' with ⟨a', j', ha', hf, ho⟩
          exact ⟨a', j', List.mem_cons_of_mem _ ha', hf, ho⟩

/-- Membership in the ATG candidate list of a frame. -/
lemma mem_atgIndices {s : List Char} {f a : ℕ} (h : a ∈ atgIndices s f) :
    a % 3 = f ∧ a + 2 < s.length ∧ codonAt s a = start_codon := by
  simp only [atgIndices, List.mem_filter, List.mem_range, decide_eq_true_eq] at h
  exact h.2

/-- The ATG candidate list of a frame is strictly increasing. -/
lemma atgIndices_sorted (s : List Char) (f : ℕ) :
    List.Pairwise (· < ·) (atgIndices s f) :=
  List.Pairwise.sublist (List.filter_sublist _) (List.pairwise_lt_range _)

/-- Membership in the final ORF list factors through one of the three frames. -/
lemma mem_find_orfs {dna : List Char} {orf : Orf}
    (h : orf ∈ find_orfs_bacterial dna) :
    orf ∈ orfsInFrame (dna.map Char.toUpper) 0 ∨
    orf ∈ orfsInFrame (dna.map Char.toUpper) 1 ∨
    orf ∈ orfsInFrame (dna.map Char.toUpper) 2 := by
  unfold find_orfs_bacterial at h
  by_cases hd : dna = []
  · simp [hd] at h
  · rw [if_neg hd] at h
    have hperm := List.perm_insertionSort orfLe
      (orfsInFrame (dna.map Char.toUpper) 0 ++ orfsInFrame (dna.map Char.toUpper) 1 ++
        orfsInFrame (dna.map Char.toUpper) 2)
    rw [hperm.mem_iff] at h
    rcases List.mem_append.mp h with h' | h'
    · rcases List.mem_append.mp h' with h'' | h''
      · exact Or.inl h''
      · exact Or.inr (Or.inl h'')
    · exact Or.inr (Or.inr h')

/-- The ORFs emitted within one frame are ordered and pairwise disjoint:
each accepted ORF claims its region, later candidates inside it are skipped,
and later candidates outside it start at or after its end. -/
lemma frameLoop_disjoint (s : List Char) (f : ℕ) :
    ∀ (atgs : List ℕ) (regions : List (ℕ × ℕ)),
      List.Pairwise (· < ·) atgs →
      ((∀ o ∈ frameLoop s f atgs regions,
          o.start ∈ atgs ∧ ∀ r ∈ regions, ¬(r.1 ≤ o.start ∧ o.start < r.2)) ∧
       List.Pairwise (fun o₁ o₂ => o₁.endPos ≤ o₂.start)
         (frameLoop s f atgs regions)) := by
  intro atgs
  induction atgs with
  | nil =>
    intro regions _
    exact ⟨fun o ho => by simp [frameLoop] at ho, by simp [frameLoop]⟩
  | cons a rest ih =>
    intro regions hpw
    rcases List.pairwise_cons.mp hpw with ⟨halt, hrest⟩
    simp only [frameLoop]
    by_cases hskip : (regions.any fun r => decide (r.1 ≤ a ∧ a < r.2)) = true
    · rw [if_pos hskip]
      rcases ih regions hrest with ⟨hmem, hpair⟩
      exact ⟨fun o ho => ⟨List.mem_cons_of_mem _ (hmem o ho).1, (hmem o ho).2⟩, hpair⟩
    · rw [if_neg hskip]
      cases hfs : findStopFrom (s.drop (a + 3)) (a + 3) with
      | none =>
        rcases ih regions hrest with ⟨hmem, hpair⟩
        exact ⟨fun o ho => ⟨List.mem_cons_of_mem _ (hmem o ho).1, (hmem o ho).2⟩, hpair⟩
      | some j =>
        rcases ih (regions ++ [(a, j + 3)]) hrest with ⟨hmem, hpair⟩
        have hnotany : ∀ r ∈ regions, ¬(r.1 ≤ a ∧ a < r.2) := by
          intro r hr hcontra
          exact hskip (List.any_eq_true.mpr ⟨r, hr, by simpa using hcontra⟩)
        constructor
        · intro o ho
          rcases List.mem_cons.mp ho with rfl | ho'
          · exact ⟨List.mem_cons_self _ _, fun r hr => hnotany r hr⟩
          · exact ⟨List.mem_cons_of_mem _ (hmem o ho').1,
              fun r hr => (hmem o ho').2 r (List.mem_append_left _ hr)⟩
        · rw [List.pairwise_cons]
          refine ⟨?_, hpair⟩
          intro o ho
          have h3 := (hmem o ho).2 (a, j + 3)
            (List.mem_append_right _ (List.mem_singleton.mpr rfl))
          have h4 : a < o.start := halt _ (hmem o ho).1
          show j + 3 ≤ o.start
          by_contra h5
          push_neg at h5
          exact h3 ⟨by omega, by omega⟩

lemma orfsInFrame_pairwise (s : List Char) (f : ℕ) :
    List.Pairwise (fun o₁ o₂ => o₁.endPos ≤ o₂.start) (orfsInFrame s f) :=
  (frameLoop_disjoint s f (atgIndices s f) [] (atgIndices_sorted s f)).2

/-- The frame tag of an ORF found in frame offset `f` is `f + 1`. -/
lemma frame_of_mem (s : List Char) (f : ℕ) (o : Orf)
    (h : o ∈ orfsInFrame s f) : o.frame = f + 1 := by
  rcases frameLoop_sound s f _ _ _ h with ⟨a, j, _, _, rfl⟩
  rfl

/-- Two distinct members of an ordered-by-`endPos ≤ start` list are disjoint
in either order. -/
lemma pairwise_mem_disjoint {L : List Orf}
    (hL : List.Pairwise (fun o₁ o₂ => o₁.endPos ≤ o₂.start) L)
    {o₁ o₂ : Orf} (h1 : o₁ ∈ L) (h2 : o₂ ∈ L) (hne : o₁ ≠ o₂) :
    o₁.endPos ≤ o₂.start ∨ o₂.endPos ≤ o₁.start := by
  have hsym : Symmetric
      (fun o₁ o₂ : Orf => o₁.endPos ≤ o₂.start ∨ o₂.endPos ≤ o₁.start) :=
    fun x y h => h.symm
  have hL' : List.Pairwise
      (fun o₁ o₂ : Orf => o₁.endPos ≤ o₂.start ∨ o₂.endPos ≤ o₁.start) L :=
    hL.imp Or.inl
  exact List.Pairwise.forall hsym hL' h1 h2 hne

/-- At tolerance 0 the closeness test is interval equality. -/
lemma closeTo_zero (p t : Int × Int) : closeTo 0 p t = true ↔ p = t := by
  simp only [closeTo, decide_eq_true_eq, Prod.ext_iff]
  constructor
  · rintro ⟨h1, h2⟩
    exact ⟨by rwa [abs_nonpos_iff, sub_eq_zero] at h1,
           by rwa [abs_nonpos_iff, sub_eq_zero] at h2⟩
  · rintro ⟨h1, h2⟩
    rw [h1, h2]
    simp

/-- A successful `findMatch` at tolerance 0 returns an unmatched index whose
truth interval equals the predicted one. -/
lemma findMatch_zero_some (p : Int × Int) (matched : List ℕ) :
    ∀ (ts : List (Int × Int)) (i idx : ℕ),
      findMatch 0 p matched ts i = some idx →
      i ≤ idx ∧ ts[idx - i]? = some p ∧ idx ∉ matched := by
  intro ts
  induction ts with
  | nil =>
    intro i idx h
    simp [findMatch] at h
  | cons t ts ih =>
    intro i idx h
    simp only [findMatch] at h
    by_cases hm : i ∈ matched
    · rw [if_pos hm] at h
      rcases ih (i + 1) idx h with ⟨h1, h2, h3⟩
      refine ⟨by omega, ?_, h3⟩
      have hsub : idx - i = (idx - (i + 1)) + 1 := by omega
      rw [hsub, List.getElem?_cons_succ]
      exact h2
    · rw [if_neg hm] at h
      by_cases hc : closeTo 0 p t = true
      · rw [if_pos hc] at h
        obtain rfl := Option.some.inj h
        obtain rfl := (closeTo_zero p t).mp hc
        refine ⟨le_refl _, ?_, hm⟩
        simp
      · rw [if_neg hc] at h
        rcases ih (i + 1) idx h with ⟨h1, h2, h3⟩
        refine ⟨by omega, ?_, h3⟩
        have hsub : idx - i = (idx - (i + 1)) + 1 := by omega
        rw [hsub, List.getElem?_cons_succ]
        exact h2

/-- A failed `findMatch` at tolerance 0 means every occurrence of the
predicted interval in the scanned suffix is at an already-matched index. -/
lemma findMatch_zero_none (p : Int × Int) (matched : List ℕ) :
    ∀ (ts : List (Int × Int)) (i : ℕ),
      findMatch 0 p matched ts i = none →
      ∀ j, ts[j]? = some p → (i + j) ∈ matched := by
  intro ts
  induction ts with
  | nil =>
    intro i _ j hj
    simp at hj
  | cons t ts ih =>
    intro i h j hj
    simp only [findMatch] at h
    by_cases hm : i ∈ matched
    · rw [if_pos hm] at h
      cases j with
      | zero => simpa using hm
      | succ j' =>
        have := ih (i + 1) h j' (by simpa using hj)
        have heq : i + (j' + 1) = (i + 1) + j' := by omega
        rwa [heq]
    · rw [if_neg hm] at h
      by_cases hc : closeTo 0 p t = true
      · rw [if_pos hc] at h
        cases h
      · rw [if_neg hc] at h
        cases j with
        | zero =>
          exfalso
          rw [List.getElem?_cons_zero, Option.some.injEq] at hj
          exact hc ((closeTo_zero p t).mpr hj.symm)
        | succ j' =>
          have := ih (i + 1) h j' (by simpa using hj)
          have heq : i + (j' + 1) = (i + 1) + j' := by omega
          rwa [heq]

/-- `tp + fp` grows by exactly one per predicted interval. -/
lemma matchLoop_tp_add_fp (tol : Int) (truth : List (Int × Int)) :
    ∀ (ps : List (Int × Int)) (matched : List ℕ) (tp fp : ℕ),
      (matchLoop tol truth ps matched tp fp).1
          + (matchLoop tol truth ps matched tp fp).2.1
        = tp + fp + ps.length := by
  intro ps
  induction ps with
  | nil =>
    intro matched tp fp
    simp [matchLoop]
  | cons p ps ih =>
    intro matched tp fp
    simp only [matchLoop]
    cases findMatch tol p matched truth 0 with
    | some idx =>
      have := ih (idx :: matched) (tp + 1) fp
      simpa [Nat.add_assoc, Nat.add_comm, Nat.add_left_comm] using this
    | none =>
      have := ih matched tp (fp + 1)
      simpa [Nat.add_assoc, Nat.add_comm, Nat.add_left_comm] using this

/-- The matched-index list grows together with `tp`. -/
lemma matchLoop_matched_length (tol : Int) (truth : List (Int × Int)) :
    ∀ (ps : List (Int × Int)) (matched : List ℕ) (tp fp : ℕ),
      (matchLoop tol truth ps matched tp fp).2.2.length + tp
        = matched.length + (matchLoop tol truth ps matched tp fp).1 := by
  intro ps
  induction ps with
  | nil =>
    intro matched tp fp
    simp [matchLoop]
  | cons p ps ih =>
    intro matched tp fp
    simp only [matchLoop]
    cases findMatch tol p matched truth 0 with
    | some idx =>
      have h2 := ih (idx :: matched) (tp + 1) fp
      simp only [List.length_cons] at h2
      show (matchLoop tol truth ps (idx :: matched) (tp + 1) fp).2.2.length + tp
          = matched.length + (matchLoop tol truth ps (idx :: matched) (tp + 1) fp).1
      omega
    | none =>
      exact ih matched tp (fp + 1)

/-- Bridge: at tolerance 0 over a duplicate-free truth list, the concrete
loop computes the same `tp` and `fp` as the set-abstraction, provided the
matched-index list and the matched-value set correspond. -/
lemma matchLoop_abs (truth : List (Int × Int)) (hnd : truth.Nodup) :
    ∀ (ps : List (Int × Int)) (matched : List ℕ) (S : Finset (Int × Int))
      (tp fp : ℕ),
      (∀ idx ∈ matched, ∃ v, truth[idx]? = some v ∧ v ∈ S) →
      (∀ v ∈ S, ∃ idx ∈ matched, truth[idx]? = some v) →
      (matchLoop 0 truth ps matched tp fp).1
          = (absLoop truth.toFinset ps S tp fp).1 ∧
      (matchLoop 0 truth ps matched tp fp).2.1
          = (absLoop truth.toFinset ps S tp fp).2.1 := by
  intro ps
  induction ps with
  | nil =>
    intro matched S tp fp _ _
    exact ⟨rfl, rfl⟩
  | cons p ps ih =>
    intro matched S tp fp hInv1 hInv2
    simp only [matchLoop, absLoop]
    cases hfm : findMatch 0 p matched truth 0 with
    | some idx =>
      rcases findMatch_zero_some p matched truth 0 idx hfm with ⟨_, hget, hnm⟩
      rw [Nat.sub_zero] at hget
      have hpT : p ∈ truth.toFinset :=
        List.mem_toFinset.mpr (List.mem_iff_getElem?.mpr ⟨idx, hget⟩)
      have hpS : p ∉ S := by
        intro hpS
        rcases hInv2 p hpS with ⟨idx', hidx', hget'⟩
        have hij : idx' = idx := by
          rcases List.getElem?_eq_some.mp hget with ⟨hb1, he1⟩
          rcases List.getElem?_eq_some.mp hget' with ⟨hb2, he2⟩
          exact (List.Nodup.getElem_inj_iff hnd).mp (he2.trans he1.symm)
        rw [hij] at hidx'
        exact hnm hidx'
      rw [if_pos ⟨hpT, hpS⟩]
      apply ih (idx :: matched) (insert p S) (tp + 1) fp
      · intro idx'' h''
        rcases List.mem_cons.mp h'' with rfl | hold
        · exact ⟨p, hget, Finset.mem_insert_self _ _⟩
        · rcases hInv1 idx'' hold with ⟨v, hv1, hv2⟩
          exact ⟨v, hv1, Finset.mem_insert_of_mem hv2⟩
      · intro v hv
        rcases Finset.mem_insert.mp hv with rfl | hv'
        · exact ⟨idx, List.mem_cons_self _ _, hget⟩
        · rcases hInv2 v hv' with ⟨idx', h1, h2⟩
          exact ⟨idx', List.mem_cons_of_mem _ h1, h2⟩
    | none =>
      have hThen : ¬(p ∈ truth.toFinset ∧ p ∉ S) := by
        rintro ⟨hpT, hpS⟩
        rcases List.mem_iff_getElem?.mp (List.mem_toFinset.mp hpT) with ⟨i, hi⟩
        have him : i ∈ matched := by
          have := findMatch_zero_none p matched truth 0 hfm i hi
          simpa using this
        rcases hInv1 i him with ⟨v, hv1, hv2⟩
        rw [hi, Option.some.injEq] at hv1
        exact hpS (hv1 ▸ hv2)
      rw [if_neg hThen]
      exact ih matched S tp (fp + 1) hInv1 hInv2

/-! ## Claim theorems -/

/-- C5: for every string over {A,T,G,C,N} in either case,
`reverse_complement` is an involution. -/
theorem reverse_complement_involution (s : List Char)
    (h : ∀ c ∈ s, c ∈ dnaAlphabet) :
    reverse_complement (reverse_complement s) = s := by
  simp only [reverse_complement, List.map_reverse, List.reverse_reverse, List.map_map]
  calc s.map (complementChar ∘ complementChar)
      = s.map id := List.map_congr_left (fun c hc => complementChar_involutive c (h c hc))
    _ = s := List.map_id s

theorem reverse_complement_involution_witness :
    (∀ c ∈ ('A' :: 'T' :: 'G' :: 'C' :: 'N' :: ['a', 't', 'g', 'c', 'n']),
        c ∈ dnaAlphabet) ∧
    reverse_complement (reverse_complement
        ('A' :: 'T' :: 'G' :: 'C' :: 'N' :: ['a', 't', 'g', 'c', 'n'])) =
      ('A' :: 'T' :: 'G' :: 'C' :: 'N' :: ['a', 't', 'g', 'c', 'n']) :=
  ⟨by decide, reverse_complement_involution _ (by decide)⟩

/-- C6: the four metrics of `compute_metrics`, read over exact rationals,
agree with the spec's guarded formulas. -/
theorem compute_metrics_spec (tp fp fn : ℕ) :
    (compute_metrics tp fp fn).Precision
        = (if tp + fp = 0 then 0 else (tp : ℚ) / ((tp : ℚ) + fp)) ∧
    (compute_metrics tp fp fn).Recall
        = (if tp + fn = 0 then 0 else (tp : ℚ) / ((tp : ℚ) + fn)) ∧
    (compute_metrics tp fp fn).F1
        = (if (compute_metrics tp fp fn).Precision + (compute_metrics tp fp fn).Recall = 0
           then 0
           else 2 * (compute_metrics tp fp fn).Precision * (compute_metrics tp fp fn).Recall
              / ((compute_metrics tp fp fn).Precision + (compute_metrics tp fp fn).Recall)) ∧
    (compute_metrics tp fp fn).Accuracy
        = (if tp + fp + fn = 0 then 0 else (tp : ℚ) / ((tp : ℚ) + fp + fn)) := by
  have hguard : ∀ a b : ℕ, ∀ x : ℚ,
      (if a + b > 0 then x else 0) = (if a + b = 0 then 0 else x) := by
    intro a b x
    rcases Nat.eq_zero_or_pos (a + b) with h | h
    · simp [h]
    · simp [h, Nat.pos_iff_ne_zero.mp h]
  refine ⟨?_, ?_, ?_, ?_⟩
  · simp only [compute_metrics, hguard]
  · simp only [compute_metrics, hguard]
  · have hP : (0 : ℚ) ≤ (compute_metrics tp fp fn).Precision := by
      simp only [compute_metrics]
      split <;> positivity
    have hR : (0 : ℚ) ≤ (compute_metrics tp fp fn).Recall := by
      simp only [compute_metrics]
      split <;> positivity
    have hsum : ((compute_metrics tp fp fn).Precision + (compute_metrics tp fp fn).Recall > 0)
        ↔ ¬((compute_metrics tp fp fn).Precision + (compute_metrics tp fp fn).Recall = 0) := by
      constructor
      · intro hpos heq
        rw [heq] at hpos
        exact lt_irrefl 0 hpos
      · intro hne
        exact lt_of_le_of_ne (by linarith) (Ne.symm hne)
    show (if (compute_metrics tp fp fn).Precision + (compute_metrics tp fp fn).Recall > 0 then
        2 * (compute_metrics tp fp fn).Precision * (compute_metrics tp fp fn).Recall
          / ((compute_metrics tp fp fn).Precision + (compute_metrics tp fp fn).Recall) else 0) = _
    rcases Classical.em ((compute_metrics tp fp fn).Precision
        + (compute_metrics tp fp fn).Recall = 0) with h | h
    · simp [h]
    · simp [h, hsum.mpr h]
  · have h3 : ∀ x : ℚ, (if tp + fp + fn > 0 then x else 0)
        = (if tp + fp + fn = 0 then 0 else x) := by
      intro x
      rcases Nat.eq_zero_or_pos (tp + fp + fn) with h | h
      · simp [h]
      · simp [h, Nat.pos_iff_ne_zero.mp h]
    simp only [compute_metrics, h3]

/-- C3 counterexample: an input whose only line is sequence data before any
header parses without failure (to the empty record list) — `parse_fasta`
raises no `FormatError`. -/
theorem c3_counterexample :
    parse_fasta [['A', 'C', 'G', 'T']] = Except.ok [] := by
  rfl

/-- C3 amended: on input with sequence data before any header, `parse_fasta`
does not fail; the lines preceding the first header are silently discarded and
parsing continues as if they were absent. -/
theorem parse_fasta_leading_data_no_error (pre rest : List (List Char))
    (h : ∀ l ∈ pre, (pyStrip l).head? ≠ some '>') :
    (∃ recs, parse_fasta (pre ++ rest) = Except.ok recs) ∧
    parse_fasta (pre ++ rest) = parse_fasta rest := by
  refine ⟨⟨pfLoop none [] (pre ++ rest), rfl⟩, ?_⟩
  unfold parse_fasta
  rw [pfLoop_skip pre h rest []]

theorem parse_fasta_leading_data_no_error_witness :
    (∀ l ∈ [['A', 'C', 'G', 'T']], (pyStrip l).head? ≠ some '>') ∧
    ((∃ recs, parse_fasta ([['A', 'C', 'G', 'T']] ++ [['>', 'h'], ['A', 'A']])
        = Except.ok recs) ∧
     parse_fasta ([['A', 'C', 'G', 'T']] ++ [['>', 'h'], ['A', 'A']])
        = parse_fasta [['>', 'h'], ['A', 'A']]) :=
  ⟨by decide, parse_fasta_leading_data_no_error _ _ (by decide)⟩

/-- C9: non-header lines before the first `>` are silently dropped by
`parse_fasta` — the parse of the whole input equals the parse of the suffix
starting at the first header, and an input with no header at all yields an
empty record list without an error. -/
theorem parse_fasta_discards_before_header (pre rest : List (List Char))
    (h : ∀ l ∈ pre, (pyStrip l).head? ≠ some '>') :
    parse_fasta (pre ++ rest) = parse_fasta rest ∧
    parse_fasta pre = Except.ok [] := by
  constructor
  · unfold parse_fasta
    rw [pfLoop_skip pre h rest []]
  · unfold parse_fasta
    have := pfLoop_skip pre h [] []
    rw [List.append_nil] at this
    rw [this]
    rfl

theorem parse_fasta_discards_before_header_witness :
    (∀ l ∈ [['T', 'T'], [' '], ['g', 'g']], (pyStrip l).head? ≠ some '>') ∧
    (parse_fasta ([['T', 'T'], [' '], ['g', 'g']] ++ [['>', 'x'], ['C', 'C']])
        = parse_fasta [['>', 'x'], ['C', 'C']] ∧
     parse_fasta [['T', 'T'], [' '], ['g', 'g']] = Except.ok []) :=
  ⟨by decide, parse_fasta_discards_before_header _ _ (by decide)⟩

/-- C8: an input containing a non-comment row with exactly 9 tab-separated
fields whose start or end field is not an integer literal makes `parse_gff`
fail with a `FormatError` (Python's uncaught `ValueError` from `int()`). -/
theorem parse_gff_bad_coordinate_fails
    (lines : List (List Char)) (row f0 f1 f2 f3 f4 f5 f6 f7 f8 : List Char)
    (hmem : row ∈ lines)
    (hcomment : (pyStrip row).head? ≠ some '#')
    (hsplit : splitOnChar '\t' (pyStrip row) = [f0, f1, f2, f3, f4, f5, f6, f7, f8])
    (hbad : pyInt f3 = none ∨ pyInt f4 = none) :
    ∃ e, parse_gff lines = Except.error e := by
  induction lines with
  | nil => cases hmem
  | cons line rest ih =>
    rcases List.mem_cons.mp hmem with rfl | hmem'
    · have hne : pyStrip row ≠ [] := by
        intro h0
        rw [h0] at hsplit
        simp [splitOnChar] at hsplit
      have hcond : ¬(pyStrip row = [] ∨ (pyStrip row).head? = some '#') := by
        push_neg
        exact ⟨hne, hcomment⟩
      rcases gffRow_error f0 f1 f2 f3 f4 f5 f6 f7 f8 hbad with ⟨e, he⟩
      refine ⟨e, ?_⟩
      simp [parse_gff, hcond, hsplit, he]
    · rcases ih hmem' with ⟨e, he⟩
      by_cases h1 : pyStrip line = [] ∨ (pyStrip line).head? = some '#'
      · exact ⟨e, by simp [parse_gff, h1, he]⟩
      · by_cases h2 : (splitOnChar '\t' (pyStrip line)).length ≠ 9
        · exact ⟨e, by simp [parse_gff, h1, h2, he]⟩
        · cases hrow : gffRow (splitOnChar '\t' (pyStrip line)) with
          | error e' => exact ⟨e', by simp [parse_gff, h1, not_not.mp h2, hrow]⟩
          | ok r => exact ⟨e, by simp [parse_gff, h1, not_not.mp h2, hrow, he]⟩

theorem parse_gff_bad_coordinate_fails_witness :
    pyInt "X".toList = none ∧
    splitOnChar '\t' (pyStrip "a\tb\tgene\tX\t20\t.\t+\t.\tk=v".toList)
      = [['a'], ['b'], "gene".toList, "X".toList, "20".toList,
         ['.'], ['+'], ['.'], "k=v".toList] ∧
    (∃ e, parse_gff ["a\tb\tgene\tX\t20\t.\t+\t.\tk=v".toList] = Except.error e) :=
  ⟨by decide, by decide,
    parse_gff_bad_coordinate_fails ["a\tb\tgene\tX\t20\t.\t+\t.\tk=v".toList]
      "a\tb\tgene\tX\t20\t.\t+\t.\tk=v".toList
      ['a'] ['b'] "gene".toList "X".toList "20".toList ['.'] ['+'] ['.'] "k=v".toList
      (by decide) (by decide) (by decide) (Or.inl (by decide))⟩

/-- C1: every emitted ORF's `sequence` is the uppercased input slice
`[start, end)`, its `length` is `end − start`, a positive multiple of 3, the
sequence begins with `"ATG"` and ends with a stop codon, and no in-frame codon
strictly between `start` and `end − 3` is a stop codon. -/
theorem orf_invariants (dna : List Char) (o : Orf)
    (hmem : o ∈ find_orfs_bacterial dna) :
    o.sequence = ((dna.map Char.toUpper).drop o.start).take (o.endPos - o.start) ∧
    o.length = o.endPos - o.start ∧
    0 < o.length ∧ o.length % 3 = 0 ∧
    o.sequence.take 3 = start_codon ∧
    o.sequence.drop (o.length - 3) ∈ stop_codons ∧
    ∀ k, o.start < k → k < o.endPos - 3 → (k - o.start) % 3 = 0 →
      codonAt (dna.map Char.toUpper) k ∉ stop_codons := by
  have hframe :
      ∃ f, o ∈ orfsInFrame (dna.map Char.toUpper) f := by
    rcases mem_find_orfs hmem with h | h | h
    exacts [⟨0, h⟩, ⟨1, h⟩, ⟨2, h⟩]
  rcases hframe with ⟨f, hf⟩
  rcases frameLoop_sound _ f _ _ _ hf with ⟨a, j, ha, hstop, ho⟩
  rcases mem_atgIndices ha with ⟨_, hlt, hatg⟩
  rcases findStopFrom_spec _ _ _ rfl j hstop with ⟨hj1, hj2, hj3, hj4, hj5⟩
  subst ho
  set s := dna.map Char.toUpper with hs
  have hEle : j + 3 ≤ s.length := by omega
  have hlen : ((s.drop a).take (j + 3 - a)).length = j + 3 - a := by
    rw [List.length_take, List.length_drop]
    omega
  have hlenfield : (mkOrf s f a (j + 3)).length = j + 3 - a := hlen
  refine ⟨rfl, hlenfield, by simp [hlenfield]; omega, ?_, ?_, ?_, ?_⟩
  · rw [hlenfield]
    omega
  · show ((s.drop a).take (j + 3 - a)).take 3 = start_codon
    rw [List.take_take]
    have h3 : min 3 (j + 3 - a) = 3 := by omega
    rw [h3]
    exact hatg
  · show ((s.drop a).take (j + 3 - a)).drop ((mkOrf s f a (j + 3)).length - 3)
        ∈ stop_codons
    rw [hlenfield]
    rw [List.drop_take, List.drop_drop]
    have h1 : j + 3 - a - (j + 3 - a - 3) = 3 := by omega
    have h2 : a + (j + 3 - a - 3) = j := by omega
    rw [h1, h2]
    exact hj4
  · intro k hk1 hk2 hk3
    have hk1' : a < k := hk1
    have hk2' : k < j + 3 - 3 := hk2
    have hk3' : (k - a) % 3 = 0 := hk3
    exact hj5 k (by omega) (by omega) (by omega)

theorem orf_invariants_witness :
    ({ start := 0, endPos := 9, frame := 1,
       sequence := "ATGAAATAA".toList, length := 9 } : Orf)
        ∈ find_orfs_bacterial "ATGAAATAA".toList ∧
    (({ start := 0, endPos := 9, frame := 1,
        sequence := "ATGAAATAA".toList, length := 9 } : Orf).sequence
      = ((("ATGAAATAA".toList).map Char.toUpper).drop 0).take (9 - 0) ∧
     (9 : ℕ) = 9 - 0 ∧ (0 : ℕ) < 9 ∧ (9 : ℕ) % 3 = 0 ∧
     ("ATGAAATAA".toList).take 3 = start_codon ∧
     ("ATGAAATAA".toList).drop (9 - 3) ∈ stop_codons ∧
     ∀ k, 0 < k → k < 9 - 3 → (k - 0) % 3 = 0 →
       codonAt (("ATGAAATAA".toList).map Char.toUpper) k ∉ stop_codons) :=
  ⟨by decide, orf_invariants "ATGAAATAA".toList _ (by decide)⟩

/-- C10: every emitted ORF spans at least two codons (`end − start ≥ 6`),
because the stop-codon scan starts three positions past the ATG. -/
theorem orf_min_length (dna : List Char) (o : Orf)
    (hmem : o ∈ find_orfs_bacterial dna) :
    o.start + 6 ≤ o.endPos := by
  have hframe :
      ∃ f, o ∈ orfsInFrame (dna.map Char.toUpper) f := by
    rcases mem_find_orfs hmem with h | h | h
    exacts [⟨0, h⟩, ⟨1, h⟩, ⟨2, h⟩]
  rcases hframe with ⟨f, hf⟩
  rcases frameLoop_sound _ f _ _ _ hf with ⟨a, j, _, hstop, ho⟩
  rcases findStopFrom_spec _ _ _ rfl j hstop with ⟨hj1, _, _, _, _⟩
  subst ho
  show a + 6 ≤ j + 3
  omega

theorem orf_min_length_witness :
    ({ start := 0, endPos := 6, frame := 1,
       sequence := "ATGTAA".toList, length := 6 } : Orf)
        ∈ find_orfs_bacterial "ATGTAA".toList ∧
    (0 : ℕ) + 6 ≤ 6 :=
  ⟨by decide,
    orf_min_length "ATGTAA".toList
      { start := 0, endPos := 6, frame := 1,
        sequence := "ATGTAA".toList, length := 6 } (by decide)⟩

/-- C4: two distinct emitted ORFs carrying the same frame value have disjoint
half-open `[start, end)` intervals. -/
theorem same_frame_orfs_disjoint (dna : List Char) (o₁ o₂ : Orf)
    (h₁ : o₁ ∈ find_orfs_bacterial dna) (h₂ : o₂ ∈ find_orfs_bacterial dna)
    (hframe : o₁.frame = o₂.frame) (hne : o₁ ≠ o₂) :
    o₁.endPos ≤ o₂.start ∨ o₂.endPos ≤ o₁.start := by
  rcases mem_find_orfs h₁ with ha | ha | ha <;>
    rcases mem_find_orfs h₂ with hb | hb | hb <;>
    first
      | exact pairwise_mem_disjoint (orfsInFrame_pairwise _ _) ha hb hne
      | · have e₁ := frame_of_mem _ _ _ ha
          have e₂ := frame_of_mem _ _ _ hb
          rw [e₁, e₂] at hframe
          omega

theorem same_frame_orfs_disjoint_witness :
    ({ start := 0, endPos := 9, frame := 1,
       sequence := "ATGAAATAA".toList, length := 9 } : Orf)
        ∈ find_orfs_bacterial "ATGAAATAAATGCCCTAA".toList ∧
    ({ start := 9, endPos := 18, frame := 1,
       sequence := "ATGCCCTAA".toList, length := 9 } : Orf)
        ∈ find_orfs_bacterial "ATGAAATAAATGCCCTAA".toList ∧
    ((9 : ℕ) ≤ 9 ∨ (18 : ℕ) ≤ 0) :=
  ⟨by decide, by decide,
    same_frame_orfs_disjoint "ATGAAATAAATGCCCTAA".toList
      { start := 0, endPos := 9, frame := 1,
        sequence := "ATGAAATAA".toList, length := 9 }
      { start := 9, endPos := 18, frame := 1,
        sequence := "ATGCCCTAA".toList, length := 9 }
      (by decide) (by decide) rfl (by decide)⟩

/-- C7: at tolerance 0 over a duplicate-free truth list, the total
`tp + fp + fn` of `match_orfs` is invariant under permutation of the truth
list. -/
theorem match_orfs_total_perm_invariant
    (predicted truth truth' : List (Int × Int))
    (hnd : truth.Nodup) (hperm : truth.Perm truth') :
    (match_orfs predicted truth 0).1 + (match_orfs predicted truth 0).2.1
        + (match_orfs predicted truth 0).2.2
      = (match_orfs predicted truth' 0).1 + (match_orfs predicted truth' 0).2.1
        + (match_orfs predicted truth' 0).2.2 := by
  have hnd' : truth'.Nodup := hperm.nodup_iff.mp hnd
  have hT : truth.toFinset = truth'.toFinset := List.toFinset_eq_of_perm _ _ hperm
  have hL : truth.length = truth'.length := hperm.length_eq
  have h1 := matchLoop_abs truth hnd predicted [] ∅ 0 0
    (by simp) (by simp)
  have h2 := matchLoop_abs truth' hnd' predicted [] ∅ 0 0
    (by simp) (by simp)
  have htp : (matchLoop 0 truth predicted [] 0 0).1
      = (matchLoop 0 truth' predicted [] 0 0).1 := by
    rw [h1.1, h2.1, hT]
  have hfp : (matchLoop 0 truth predicted [] 0 0).2.1
      = (matchLoop 0 truth' predicted [] 0 0).2.1 := by
    rw [h1.2, h2.2, hT]
  have hm1 := matchLoop_matched_length 0 truth predicted [] 0 0
  have hm2 := matchLoop_matched_length 0 truth' predicted [] 0 0
  show (matchLoop 0 truth predicted [] 0 0).1
      + (matchLoop 0 truth predicted [] 0 0).2.1
      + (truth.length - (matchLoop 0 truth predicted [] 0 0).2.2.length)
    = (matchLoop 0 truth' predicted [] 0 0).1
      + (matchLoop 0 truth' predicted [] 0 0).2.1
      + (truth'.length - (matchLoop 0 truth' predicted [] 0 0).2.2.length)
  simp only [List.length_nil] at hm1 hm2
  omega

theorem match_orfs_total_perm_invariant_witness :
    ([((0 : Int), (9 : Int)), ((5 : Int), (7 : Int))] : List (Int × Int)).Nodup ∧
    ([((0 : Int), (9 : Int)), ((5 : Int), (7 : Int))] : List (Int × Int)).Perm
      [((5 : Int), (7 : Int)), ((0 : Int), (9 : Int))] ∧
    ((match_orfs [((0 : Int), (9 : Int))] [(0, 9), (5, 7)] 0).1
        + (match_orfs [((0 : Int), (9 : Int))] [(0, 9), (5, 7)] 0).2.1
        + (match_orfs [((0 : Int), (9 : Int))] [(0, 9), (5, 7)] 0).2.2
      = (match_orfs [((0 : Int), (9 : Int))] [(5, 7), (0, 9)] 0).1
        + (match_orfs [((0 : Int), (9 : Int))] [(5, 7), (0, 9)] 0).2.1
        + (match_orfs [((0 : Int), (9 : Int))] [(5, 7), (0, 9)] 0).2.2) :=
  ⟨by decide, by decide,
    match_orfs_total_perm_invariant [((0 : Int), (9 : Int))]
      [(0, 9), (5, 7)] [(5, 7), (0, 9)] (by decide) (by decide)⟩

/-- C2 counterexample: on `"TTTATGCCCTAAGGG"` the frame-0 scan does find an
ORF (the ATG sits at offset 3 = 0 mod 3), and no emitted ORF has start 4 and
end 13. -/
theorem c2_frame_counterexample :
    orfsInFrame ("TTTATGCCCTAAGGG".toList.map Char.toUpper) 0 ≠ [] ∧
    (find_orfs_bacterial "TTTATGCCCTAAGGG".toList).any
        (fun o => o.start == 4 && o.endPos == 13) = false := by
  decide

/-- C2 amended: on `"TTTATGCCCTAAGGG"` the ATG sits at offset 3, which is a
frame-0-aligned position, so the frame-0 scan emits the single ORF
`[3, 12)` (reported as frame 1) and the other two frames emit nothing. -/
theorem c2_amended_scenario :
    find_orfs_bacterial "TTTATGCCCTAAGGG".toList =
      [{ start := 3, endPos := 12, frame := 1,
         sequence := "ATGCCCTAA".toList, length := 9 }] ∧
    orfsInFrame ("TTTATGCCCTAAGGG".toList.map Char.toUpper) 1 = [] ∧
    orfsInFrame ("TTTATGCCCTAAGGG".toList.map Char.toUpper) 2 = [] := by
  decide

end GeneAnalysis
